import Mathlib

/-!
Verification of the py-cifsdk feed engine: shallow embedding of
`cifsdk/client.py` (the `aggregate` routine and the `--feed` branch of
`main`), `cifsdk/feed/__init__.py` (the plugin factory) and the two feed
processors present in the sources, `cifsdk/feed/ipv4.py` and
`cifsdk/feed/fqdn.py`.
-/

namespace Cifsdk

/-! ## Records

A record is a Python dict; the feed code reads the `observable`,
`confidence` and `tags` fields.  `observable` is modelled as an `Option`
so that a record lacking the field (a `KeyError` in Python) is
representable. -/

structure Rec where
  observable : Option String
  confidence : Int
  tags : List String
deriving DecidableEq, Repr

/-- Python exceptions raised by the feed code. -/
inductive PyErr where
  | keyError (k : String)
  | valueError (s : String)
  | typeError (msg : String)
deriving DecidableEq, Repr

/-- Python subscript access of the observable field of a record dict:
raises a KeyError naming the field when absent. -/
def getObservable (r : Rec) : Except PyErr String :=
  match r.observable with
  | some s => .ok s
  | none => .error (.keyError "observable")

/-! ## `Client.aggregate` (client.py lines 164-179)

`sorted(data, key=lambda x: x[sort], reverse=True)` is a stable sort,
descending in the sort field, ties keeping input order; the loop then
keeps the first record seen per distinct key-field value.  Field access
is modelled by projection functions `key` and `rank`. -/

section Aggregate

variable {α : Type*} {κ : Type*} {ρ : Type*} [DecidableEq κ] [LinearOrder ρ]

/-- Insert `a` into a descending-sorted list, before the first element of
rank `≤ rank a` (so an element inserted earlier in input order precedes
later equal-rank elements: stability of Python `sorted`). -/
def insertDesc (rank : α → ρ) (a : α) : List α → List α
  | [] => [a]
  | b :: l => if rank b ≤ rank a then a :: b :: l else b :: insertDesc rank a l

/-- Stable descending insertion sort: the behaviour of
`sorted(data, key=..., reverse=True)`. -/
def sortDesc (rank : α → ρ) : List α → List α
  | [] => []
  | a :: l => insertDesc rank a (sortDesc rank l)

/-- The dedup loop of `aggregate`: `seen` is the set `x` of key values
already kept. -/
def dedupBy (key : α → κ) : List κ → List α → List α
  | _, [] => []
  | seen, d :: l =>
    if key d ∈ seen then dedupBy key seen l
    else d :: dedupBy key (key d :: seen) l

/-- Embedding of `Client.aggregate`. -/
def aggregate (data : List α) (key : α → κ) (rank : α → ρ) : List α :=
  dedupBy key [] (sortDesc rank data)

end Aggregate

/-! ## Character-level string helpers

Python `s.split(sep)` for a one-character separator, over the character
list of the string. -/

def splitChar (c : Char) : List Char → List (List Char)
  | [] => [[]]
  | x :: xs =>
    if x = c then [] :: splitChar c xs
    else
      match splitChar c xs with
      | [] => [[x]]
      | h :: t => (x :: h) :: t

/-- Python `c in s` for a single character `c`. -/
def pyInStr (c : Char) (s : String) : Bool := s.data.contains c

/-! ## IPv4 parsing and the pytricia trie (feed/ipv4.py)

`pytricia.PyTricia` keys are parsed as dotted-quad IPv4 addresses with an
optional `/plen`; an unparsable key raises `ValueError`.  The trie is
modelled as the list of inserted `(network, prefix length)` blocks;
membership (`x in wl`) parses `x` as a bare address and asks whether some
inserted block contains it. -/

def parseNatDigits (cs : List Char) : Option Nat :=
  if cs ≠ [] ∧ cs.all Char.isDigit then
    some (cs.foldl (fun n c => n * 10 + (c.toNat - 48)) 0)
  else none

def parseOctetL (cs : List Char) : Option Nat := do
  let n ← parseNatDigits cs
  if n ≤ 255 then some n else none

def parseIPv4L (cs : List Char) : Option Nat :=
  match splitChar '.' cs with
  | [a, b, c, d] => do
    let a ← parseOctetL a
    let b ← parseOctetL b
    let c ← parseOctetL c
    let d ← parseOctetL d
    some (((a * 256 + b) * 256 + c) * 256 + d)
  | _ => none

def parseIPv4 (s : String) : Option Nat := parseIPv4L s.data

def parsePrefixLen (cs : List Char) : Option Nat := do
  let n ← parseNatDigits cs
  if n ≤ 32 then some n else none

/-- Parse `addr/plen`. -/
def parseCIDR (s : String) : Option (Nat × Nat) :=
  match splitChar '/' s.data with
  | [a, p] => do
    let addr ← parseIPv4L a
    let plen ← parsePrefixLen p
    some (addr, plen)
  | _ => none

/-- Does the CIDR block `b = (network, plen)` contain `addr`?  (pytricia
compares the first `plen` bits.) -/
def blockContains (b : Nat × Nat) (addr : Nat) : Bool :=
  addr >>> (32 - b.2) == b.1 >>> (32 - b.2)

/-- Membership test on the pytricia trie: some inserted block contains
the address. -/
def trieContains (blocks : List (Nat × Nat)) (addr : Nat) : Bool :=
  blocks.any (fun b => blockContains b addr)

/-- Subscript assignment on the pytricia trie: insert a CIDR key;
unparsable keys raise ValueError. -/
def insertWl (wl : List (Nat × Nat)) (s : String) : Except PyErr (List (Nat × Nat)) :=
  match parseCIDR s with
  | some b => .ok (wl ++ [b])
  | none => .error (.valueError s)

/-! ## feed/ipv4.py -/

def PERM_WHITELIST_V4 : List String :=
  ["0.0.0.0/8", "10.0.0.0/8", "127.0.0.0/8", "192.168.0.0/16",
   "169.254.0.0/16", "192.0.2.0/24", "224.0.0.0/4", "240.0.0.0/5",
   "248.0.0.0/5"]

def tag_contains_whitelist (data : List String) : Bool :=
  data.any (· == "whitelist")

/-- The loop inserting every PERM_WHITELIST entry into the trie
(ipv4.py lines 33-34). -/
def insertPerm : List (Nat × Nat) → List String → Except PyErr (List (Nat × Nat))
  | wl, [] => .ok wl
  | wl, s :: rest =>
    match insertWl wl s with
    | .error e => .error e
    | .ok wl2 => insertPerm wl2 rest

/-- The parsed permanent IPv4 whitelist blocks. -/
def permBlocks : List (Nat × Nat) :=
  [(0, 8), (167772160, 8), (2130706432, 8), (3232235520, 16),
   (2851995648, 16), (3221225984, 24), (3758096384, 4), (4026531840, 5),
   (4160749568, 5)]

/-- A bare observable without a slash gets a /32 suffix appended before
insertion (ipv4.py lines 38-39). -/
def normalizeObs (o : String) : String :=
  if pyInStr '/' o then o else o ++ "/32"

/-- The dynamic-whitelist insertion loop (ipv4.py lines 36-40). -/
def insertDynamic : List (Nat × Nat) → List Rec → Except PyErr (List (Nat × Nat))
  | wl, [] => .ok wl
  | wl, y :: rest =>
    match getObservable y with
    | .error e => .error e
    | .ok o =>
      match insertWl wl (normalizeObs o) with
      | .error e => .error e
      | .ok wl2 => insertDynamic wl2 rest

/-- Build the whole trie: permanent whitelist, then dynamic entries. -/
def ipv4BuildWl (whitelist : List Rec) : Except PyErr (List (Nat × Nat)) :=
  match insertPerm [] PERM_WHITELIST_V4 with
  | .error e => .error e
  | .ok perm => insertDynamic perm whitelist

/-- The record loop of `Ipv4.process` (ipv4.py lines 45-51): skip records
tagged `whitelist`, then keep records whose observable is not in the
trie; an observable that does not parse raises `ValueError` at lookup. -/
def ipv4Filter (blocks : List (Nat × Nat)) : List Rec → Except PyErr (List Rec)
  | [] => .ok []
  | y :: rest =>
    if tag_contains_whitelist y.tags then ipv4Filter blocks rest
    else
      match getObservable y with
      | .error e => .error e
      | .ok o =>
        match parseIPv4 o with
        | none => .error (.valueError o)
        | some a =>
          match ipv4Filter blocks rest with
          | .error e => .error e
          | .ok rv => if trieContains blocks a then .ok rv else .ok (y :: rv)

/-- Embedding of `Ipv4.process` (ipv4.py lines 31-52). -/
def ipv4Process (data whitelist : List Rec) : Except PyErr (List Rec) :=
  match ipv4BuildWl whitelist with
  | .error e => .error e
  | .ok blocks => ipv4Filter blocks data

/-! ## feed/fqdn.py -/

def PERM_WHITELIST_FQDN : List String :=
  ["google.com", "yahoo.com", "facebook.com", "youtube.com", "netflix.com",
   "baidu.com", "wikipedia.org", "twitter.com", "qq.com", "taobao.com",
   "amazon.com", "live.com", "bing.com", "wordpress.com", "msn.com",
   "update.symantec.com"]

/-- Python split of a domain string on the dot character, as a list of
label strings. -/
def pySplitDot (d : String) : List String :=
  (splitChar '.' d.data).map (fun l => ⟨l⟩)

/-- The loop body of `Fqdn.match_whitelist`: Python iterates
`enumerate(bits)` while popping the front of `bits`, so the fetch of
index `i` succeeds only while `i < len(bits)` of the *current* list; the
joined current list is then tested against the whitelist set and the
front label popped. -/
def mwGo (wl : List String) : List String → Nat → Bool
  | [], _ => false
  | b :: bits, i =>
    if i < (b :: bits).length then
      if String.intercalate "." (b :: bits) ∈ wl then true
      else mwGo wl bits (i + 1)
    else false

/-- Embedding of `Fqdn.match_whitelist` (fqdn.py lines 32-38), as the
boolean it is used as (the Python None return is falsy). -/
def match_whitelist (wl : List String) (d : String) : Bool :=
  mwGo wl (pySplitDot d) 0

/-- Python `set.add` on the whitelist set modelled as a list with set
membership. -/
def insertSet (s : List String) (w : String) : List String :=
  if w ∈ s then s else w :: s

/-- The mutable `self.wl` of an `Fqdn` instance. -/
structure FqdnState where
  wl : List String
deriving DecidableEq, Repr

/-- Constructor of `Fqdn`: the instance whitelist set is seeded with the
permanent whitelist (fqdn.py lines 27-30). -/
def fqdnInit : FqdnState := ⟨PERM_WHITELIST_FQDN⟩

/-- The record loop of `Fqdn.process` (fqdn.py lines 48-53): keep records
whose observable does not match the whitelist.  There is no tag check. -/
def fqdnFilter (wl : List String) : List Rec → Except PyErr (List Rec)
  | [] => .ok []
  | x :: rest =>
    match getObservable x with
    | .error e => .error e
    | .ok o =>
      match fqdnFilter wl rest with
      | .error e => .error e
      | .ok rv => if match_whitelist wl o then .ok rv else .ok (x :: rv)

/-- Embedding of `Fqdn.process` (fqdn.py lines 41-53).  The local name
`wl` aliases the instance set `self.wl`, so the add loop mutates the
instance; the returned state is the mutated instance, updated even when
the record loop raises. -/
def fqdnProcess (st : FqdnState) (data : List Rec) (whitelist : List String) :
    FqdnState × Except PyErr (List Rec) :=
  let wl := whitelist.foldl insertSet st.wl
  (⟨wl⟩, fqdnFilter wl data)

/-! ## feed/__init__.py and the `--feed` branch of `main` (client.py) -/

def plugins : List String := ["ipv4", "ipv6", "fqdn", "url"]

/-- Embedding of `factory` in feed sources: the plugin class for a known
name, Python None otherwise. -/
def factory (name : String) : Option String :=
  if name ∈ plugins then some name else none

/-- The dedup loop of `Client.aggregate` with the Python subscript
access of the default key field: the loop reads the observable field of
each record of the sorted sequence in turn, so a record lacking it
raises a KeyError that aborts the whole call (client.py line 175). -/
def dedupByObsE : List String → List Rec → Except PyErr (List Rec)
  | _, [] => .ok []
  | seen, d :: l =>
    match getObservable d with
    | .error e => .error e
    | .ok k =>
      if k ∈ seen then dedupByObsE seen l
      else
        match dedupByObsE (k :: seen) l with
        | .error e => .error e
        | .ok rv => .ok (d :: rv)

/-- The call `cli.aggregate(ret)` with the default field and sort
arguments: stable descending sort on the confidence field (total in the
model), then the dedup loop whose key-field subscript access can raise
KeyError. -/
def clientAggregateE (data : List Rec) : Except PyErr (List Rec) :=
  dedupByObsE [] (sortDesc Rec.confidence data)

/-- The `--feed` steps of `main` (client.py lines 340-343):
`f = feed_factory(otype)` (returns `None` on unknown types, raising
nothing yet), then `ret = cli.aggregate(ret)` runs and may itself raise
a KeyError on a record lacking the observable field, then
`f().process(ret, wl)` — calling `None()` raises `TypeError`.  The first
component logs the pipeline stages completed before any exception; the
plugin behaviours are abstracted as `procs`. -/
def mainFeedLogged (procs : String → List Rec → List Rec → Except PyErr (List Rec))
    (otype : String) (data wl : List Rec) :
    List String × Except PyErr (List Rec) :=
  let f := factory otype
  match clientAggregateE data with
  | .error e => ([], .error e)
  | .ok ret =>
    let performed := ["aggregate"]
    match f with
    | none => (performed, .error (.typeError "NoneType object is not callable"))
    | some name => (performed ++ ["process"], procs name ret wl)

/-- Modelled from the spec: the suffix matching described in §4.2 — a
candidate matches iff it equals an inserted domain or an inserted domain
is a label-aligned dot-delimited suffix of it (every suffix obtained by
dropping leading labels is tested). -/
def suffixMatchSpec (wl : List String) (d : String) : Bool :=
  (List.range (pySplitDot d).length).any
    (fun j => String.intercalate "." ((pySplitDot d).drop j) ∈ wl)


/-! ## Lemmas about `aggregate` -/

section AggregateLemmas

variable {α : Type*} {κ : Type*} {ρ : Type*} [DecidableEq κ] [LinearOrder ρ]
variable {rank : α → ρ} {key : α → κ}

theorem mem_insertDesc {a x : α} {l : List α} :
    x ∈ insertDesc rank a l ↔ x = a ∨ x ∈ l := by
  induction l with
  | nil => simp [insertDesc]
  | cons b l ih =>
    simp only [insertDesc]
    split
    · simp [List.mem_cons]
    · simp only [List.mem_cons, ih]
      tauto

theorem mem_sortDesc {x : α} {l : List α} :
    x ∈ sortDesc rank l ↔ x ∈ l := by
  induction l with
  | nil => simp [sortDesc]
  | cons a l ih => simp [sortDesc, mem_insertDesc, ih]

theorem pairwise_insertDesc {a : α} {l : List α}
    (h : l.Pairwise (fun x y => rank y ≤ rank x)) :
    (insertDesc rank a l).Pairwise (fun x y => rank y ≤ rank x) := by
  induction l with
  | nil => simp [insertDesc]
  | cons b l ih =>
    rw [List.pairwise_cons] at h
    obtain ⟨hb, hl⟩ := h
    simp only [insertDesc]
    split
    · rename_i hba
      refine List.pairwise_cons.2 ⟨?_, List.pairwise_cons.2 ⟨hb, hl⟩⟩
      intro x hx
      rcases List.mem_cons.1 hx with rfl | hx
      · exact hba
      · exact le_trans (hb x hx) hba
    · rename_i hba
      have hab : rank a ≤ rank b := le_of_lt (lt_of_not_le hba)
      refine List.pairwise_cons.2 ⟨?_, ih hl⟩
      intro x hx
      rcases mem_insertDesc.1 hx with rfl | hx
      · exact hab
      · exact hb x hx

theorem pairwise_sortDesc (l : List α) :
    (sortDesc rank l).Pairwise (fun x y => rank y ≤ rank x) := by
  induction l with
  | nil => simp [sortDesc]
  | cons a l ih => exact pairwise_insertDesc ih

theorem filter_insertDesc {p : α → Bool}
    (hp : ∀ x y, p x = true → p y = true → rank x = rank y)
    (a : α) (l : List α) :
    (insertDesc rank a l).filter p =
      if p a then a :: l.filter p else l.filter p := by
  induction l with
  | nil =>
    simp only [insertDesc]
    split <;> simp_all [List.filter]
  | cons b l ih =>
    simp only [insertDesc]
    split
    · rename_i hba
      by_cases hpa : p a = true <;> simp [List.filter, hpa]
    · rename_i hba
      by_cases hpa : p a = true
      · by_cases hpb : p b = true
        · exact absurd (le_of_eq (hp b a hpb hpa)) hba
        · simp [List.filter_cons, hpa, hpb, ih]
      · by_cases hpb : p b = true <;> simp [List.filter_cons, hpa, hpb, ih]

theorem filter_sortDesc {p : α → Bool}
    (hp : ∀ x y, p x = true → p y = true → rank x = rank y)
    (l : List α) :
    (sortDesc rank l).filter p = l.filter p := by
  induction l with
  | nil => simp [sortDesc]
  | cons a l ih =>
    simp [sortDesc, filter_insertDesc hp, ih, List.filter_cons]

theorem mem_of_mem_dedupBy {r : α} :
    ∀ {seen : List κ} {l : List α}, r ∈ dedupBy key seen l → r ∈ l := by
  intro seen l
  induction l generalizing seen with
  | nil => simp [dedupBy]
  | cons d l ih =>
    simp only [dedupBy]
    split
    · exact fun h => List.mem_cons_of_mem _ (ih h)
    · intro h
      rcases List.mem_cons.1 h with rfl | h
      · exact List.mem_cons_self _ _
      · exact List.mem_cons_of_mem _ (ih h)

theorem key_not_mem_seen_of_mem_dedupBy {r : α} :
    ∀ {seen : List κ} {l : List α}, r ∈ dedupBy key seen l → key r ∉ seen := by
  intro seen l
  induction l generalizing seen with
  | nil => simp [dedupBy]
  | cons d l ih =>
    simp only [dedupBy]
    split
    · exact ih
    · intro h
      rcases List.mem_cons.1 h with rfl | h
      · assumption
      · have := ih h
        intro hmem
        exact this (List.mem_cons_of_mem _ hmem)

theorem sublist_dedupBy :
    ∀ (seen : List κ) (l : List α), (dedupBy key seen l).Sublist l := by
  intro seen l
  induction l generalizing seen with
  | nil => simp [dedupBy]
  | cons d l ih =>
    simp only [dedupBy]
    split
    · exact (ih seen).cons d
    · exact (ih (key d :: seen)).cons₂ d

theorem nodup_map_key_dedupBy :
    ∀ (seen : List κ) (l : List α), ((dedupBy key seen l).map key).Nodup := by
  intro seen l
  induction l generalizing seen with
  | nil => simp [dedupBy]
  | cons d l ih =>
    simp only [dedupBy]
    split
    · exact ih seen
    · simp only [List.map_cons, List.nodup_cons]
      refine ⟨?_, ih _⟩
      intro hmem
      rcases List.mem_map.1 hmem with ⟨r, hr, hkr⟩
      exact key_not_mem_seen_of_mem_dedupBy hr (hkr ▸ List.mem_cons_self _ _)

theorem dedupBy_complete {s : α} :
    ∀ {seen : List κ} {l : List α}, s ∈ l →
      key s ∈ seen ∨ ∃ r ∈ dedupBy key seen l, key r = key s := by
  intro seen l
  induction l generalizing seen with
  | nil => simp
  | cons d l ih =>
    intro hs
    simp only [dedupBy]
    rcases List.mem_cons.1 hs with heq | hs
    · split
      · rename_i hdseen
        left; rw [heq]; exact hdseen
      · right; exact ⟨d, List.mem_cons_self _ _, by rw [heq]⟩
    · split
      · exact ih hs
      · rcases @ih (key d :: seen) hs with h | ⟨r, hr, hkr⟩
        · rcases List.mem_cons.1 h with heq | h
          · right; exact ⟨d, List.mem_cons_self _ _, heq.symm⟩
          · left; assumption
        · right; exact ⟨r, List.mem_cons_of_mem _ hr, hkr⟩

theorem dedupBy_first_key {r : α} :
    ∀ {seen : List κ} {l : List α}, r ∈ dedupBy key seen l →
      (l.filter (fun s => decide (key s = key r))).head? = some r := by
  intro seen l
  induction l generalizing seen with
  | nil => simp [dedupBy]
  | cons d l ih =>
    intro h
    simp only [dedupBy] at h
    split at h
    · rename_i hd
      have hne : key d ≠ key r := by
        intro heq
        exact key_not_mem_seen_of_mem_dedupBy h (heq ▸ hd)
      simp only [List.filter_cons, decide_eq_true_eq]
      rw [if_neg (by simp [hne])]
      exact ih h
    · rename_i hd
      rcases List.mem_cons.1 h with rfl | h
      · simp [List.filter_cons]
      · have hne : key d ≠ key r := by
          intro heq
          exact key_not_mem_seen_of_mem_dedupBy h
            (heq ▸ List.mem_cons_self _ _)
        simp only [List.filter_cons, decide_eq_true_eq]
        rw [if_neg (by simp [hne])]
        exact ih h

theorem dedupBy_max_rank {r s : α} :
    ∀ {seen : List κ} {l : List α},
      l.Pairwise (fun x y => rank y ≤ rank x) →
      r ∈ dedupBy key seen l → s ∈ l → key s = key r → rank s ≤ rank r := by
  intro seen l
  induction l generalizing seen with
  | nil => simp
  | cons d l ih =>
    intro hsorted hr hs hkey
    rw [List.pairwise_cons] at hsorted
    obtain ⟨hd, hl⟩ := hsorted
    simp only [dedupBy] at hr
    split at hr
    · rename_i hdseen
      rcases List.mem_cons.1 hs with heq | hs
      · refine absurd ?_ (key_not_mem_seen_of_mem_dedupBy hr)
        rw [← hkey, heq]
        exact hdseen
      · exact ih hl hr hs hkey
    · rcases List.mem_cons.1 hr with heq | hr
      · rcases List.mem_cons.1 hs with heq2 | hs
        · rw [heq2, heq]
        · rw [heq]; exact hd s hs
      · rcases List.mem_cons.1 hs with heq2 | hs
        · have hne : key r ≠ key d := by
            intro h
            exact key_not_mem_seen_of_mem_dedupBy hr
              (by rw [h]; exact List.mem_cons_self _ _)
          rw [heq2] at hkey
          exact absurd hkey.symm hne
        · exact ih hl hr hs hkey

theorem head_filter_strengthen {p q : α → Bool} {r : α} :
    ∀ {l : List α}, (l.filter q).head? = some r →
      (∀ s, p s = true → q s = true) → p r = true →
      (l.filter p).head? = some r := by
  intro l
  induction l with
  | nil => simp
  | cons d l ih =>
    intro hq hpq hpr
    by_cases hqd : q d = true
    · simp only [List.filter_cons, hqd, if_true, List.head?_cons,
        Option.some.injEq] at hq
      subst hq
      simp [List.filter_cons, hpr]
    · have hpd : p d ≠ true := fun h => hqd (hpq d h)
      simp only [List.filter_cons, hqd, if_false] at hq
      simp only [List.filter_cons, hpd, if_false]
      simp only [Bool.false_eq_true, if_false] at *
      exact ih hq hpq hpr

end AggregateLemmas

/-! ## Lemmas about the feed processors -/

theorem getObservable_ok {r : Rec} {o : String} :
    getObservable r = .ok o ↔ r.observable = some o := by
  cases h : r.observable <;> simp [getObservable, h]

theorem getObservable_error {r : Rec} {e : PyErr} :
    getObservable r = .error e ↔ r.observable = none ∧ e = .keyError "observable" := by
  cases h : r.observable <;> simp [getObservable, h, eq_comm]

theorem fq_mem_out {wl : List String} :
    ∀ {data out : List Rec}, fqdnFilter wl data = .ok out → ∀ {r : Rec},
      (r ∈ out ↔ r ∈ data ∧
        ∃ o, r.observable = some o ∧ match_whitelist wl o = false) := by
  intro data
  induction data with
  | nil =>
    intro out h r
    simp only [fqdnFilter] at h
    injection h with h
    subst h
    simp
  | cons x rest ih =>
    intro out h r
    simp only [fqdnFilter] at h
    split at h
    · cases h
    · rename_i o hobs
      split at h
      · cases h
      · rename_i rv hrest
        split at h
        · rename_i hm
          injection h with h
          subst h
          rw [ih hrest]
          constructor
          · rintro ⟨hr, o2, ho2, hm2⟩
            exact ⟨List.mem_cons_of_mem _ hr, o2, ho2, hm2⟩
          · rintro ⟨hr, o2, ho2, hm2⟩
            rcases List.mem_cons.1 hr with heq | hr
            · exfalso
              rw [heq] at ho2
              rw [getObservable_ok.1 hobs] at ho2
              injection ho2 with ho2
              rw [← ho2] at hm2
              rw [hm] at hm2
              cases hm2
            · exact ⟨hr, o2, ho2, hm2⟩
        · rename_i hm
          have hmf : match_whitelist wl o = false := by
            cases hq : match_whitelist wl o with
            | false => rfl
            | true => exact absurd hq hm
          injection h with h
          subst h
          rw [List.mem_cons, List.mem_cons, ih hrest]
          constructor
          · rintro (heq | ⟨hr, o2, ho2, hm2⟩)
            · refine ⟨Or.inl heq, o, ?_, hmf⟩
              rw [heq]
              exact getObservable_ok.1 hobs
            · exact ⟨Or.inr hr, o2, ho2, hm2⟩
          · rintro ⟨hr, o2, ho2, hm2⟩
            rcases hr with heq | hr
            · exact Or.inl heq
            · exact Or.inr ⟨hr, o2, ho2, hm2⟩

theorem ipv4_mem_out {B : List (Nat × Nat)} :
    ∀ {data out : List Rec}, ipv4Filter B data = .ok out → ∀ {r : Rec},
      (r ∈ out ↔ r ∈ data ∧ tag_contains_whitelist r.tags = false ∧
        ∃ o a, r.observable = some o ∧ parseIPv4 o = some a ∧
          trieContains B a = false) := by
  intro data
  induction data with
  | nil =>
    intro out h r
    simp only [ipv4Filter] at h
    injection h with h
    subst h
    simp
  | cons y rest ih =>
    intro out h r
    simp only [ipv4Filter] at h
    split at h
    · rename_i htag
      rw [ih h]
      constructor
      · rintro ⟨hr, htg, o2, a2, ho2, hp2, hc2⟩
        exact ⟨List.mem_cons_of_mem _ hr, htg, o2, a2, ho2, hp2, hc2⟩
      · rintro ⟨hr, htg, o2, a2, ho2, hp2, hc2⟩
        rcases List.mem_cons.1 hr with heq | hr
        · exfalso
          rw [heq] at htg
          rw [htag] at htg
          cases htg
        · exact ⟨hr, htg, o2, a2, ho2, hp2, hc2⟩
    · rename_i htag
      split at h
      · cases h
      · rename_i o hobs
        split at h
        · cases h
        · rename_i a hparse
          split at h
          · cases h
          · rename_i rv hrest
            split at h
            · rename_i hc
              injection h with h
              subst h
              rw [ih hrest]
              constructor
              · rintro ⟨hr, htg, o2, a2, ho2, hp2, hc2⟩
                exact ⟨List.mem_cons_of_mem _ hr, htg, o2, a2, ho2, hp2, hc2⟩
              · rintro ⟨hr, htg, o2, a2, ho2, hp2, hc2⟩
                rcases List.mem_cons.1 hr with heq | hr
                · exfalso
                  rw [heq] at ho2
                  rw [getObservable_ok.1 hobs] at ho2
                  injection ho2 with ho2
                  rw [← ho2] at hp2
                  rw [hparse] at hp2
                  injection hp2 with hp2
                  rw [← hp2] at hc2
                  rw [hc] at hc2
                  cases hc2
                · exact ⟨hr, htg, o2, a2, ho2, hp2, hc2⟩
            · rename_i hc
              have hcf : trieContains B a = false := by
                cases hq : trieContains B a with
                | false => rfl
                | true => exact absurd hq hc
              have htagf : tag_contains_whitelist y.tags = false := by
                cases hq : tag_contains_whitelist y.tags with
                | false => rfl
                | true => exact absurd hq htag
              injection h with h
              subst h
              rw [List.mem_cons, List.mem_cons, ih hrest]
              constructor
              · rintro (heq | ⟨hr, htg, o2, a2, ho2, hp2, hc2⟩)
                · refine ⟨Or.inl heq, ?_, o, a, ?_, hparse, hcf⟩
                  · rw [heq]; exact htagf
                  · rw [heq]; exact getObservable_ok.1 hobs
                · exact ⟨Or.inr hr, htg, o2, a2, ho2, hp2, hc2⟩
              · rintro ⟨hr, htg, o2, a2, ho2, hp2, hc2⟩
                rcases hr with heq | hr
                · exact Or.inl heq
                · exact Or.inr ⟨hr, htg, o2, a2, ho2, hp2, hc2⟩

theorem insertWl_ok {wl B : List (Nat × Nat)} {s : String} :
    insertWl wl s = .ok B ↔ ∃ b, parseCIDR s = some b ∧ B = wl ++ [b] := by
  cases h : parseCIDR s <;> simp [insertWl, h, eq_comm]

theorem insertDynamic_sub {b : Nat × Nat} :
    ∀ {wl : List (Nat × Nat)} {W : List Rec} {B : List (Nat × Nat)},
      insertDynamic wl W = .ok B → b ∈ wl → b ∈ B := by
  intro wl W
  induction W generalizing wl with
  | nil =>
    intro B h hb
    simp only [insertDynamic] at h
    injection h with h
    subst h
    exact hb
  | cons y rest ih =>
    intro B h hb
    simp only [insertDynamic] at h
    split at h
    · cases h
    · rename_i o hobs
      split at h
      · cases h
      · rename_i wl2 hins
        rcases insertWl_ok.1 hins with ⟨blk, hp, hwl2⟩
        refine ih h ?_
        rw [hwl2]
        exact List.mem_append_left _ hb

theorem insertDynamic_mem {b : Nat × Nat} :
    ∀ {wl : List (Nat × Nat)} {W : List Rec} {B : List (Nat × Nat)},
      insertDynamic wl W = .ok B → b ∈ B →
      b ∈ wl ∨ ∃ y ∈ W, ∃ o, y.observable = some o ∧
        parseCIDR (normalizeObs o) = some b := by
  intro wl W
  induction W generalizing wl with
  | nil =>
    intro B h hb
    simp only [insertDynamic] at h
    injection h with h
    subst h
    exact Or.inl hb
  | cons y rest ih =>
    intro B h hb
    simp only [insertDynamic] at h
    split at h
    · cases h
    · rename_i o hobs
      split at h
      · cases h
      · rename_i wl2 hins
        rcases insertWl_ok.1 hins with ⟨blk, hp, hwl2⟩
        rcases ih h hb with hmem | ⟨y2, hy2, o2, ho2, hp2⟩
        · rw [hwl2] at hmem
          rcases List.mem_append.1 hmem with hmem | hmem
          · exact Or.inl hmem
          · right
            refine ⟨y, List.mem_cons_self _ _, o, getObservable_ok.1 hobs, ?_⟩
            have hbb : b = blk := List.mem_singleton.1 hmem
            rw [hbb]
            exact hp
        · exact Or.inr ⟨y2, List.mem_cons_of_mem _ hy2, o2, ho2, hp2⟩

theorem insertDynamic_contrib {W : List Rec} {y : Rec} {o : String} {b : Nat × Nat} :
    ∀ {wl B : List (Nat × Nat)}, insertDynamic wl W = .ok B → y ∈ W →
      y.observable = some o → parseCIDR (normalizeObs o) = some b → b ∈ B := by
  induction W with
  | nil =>
    intro wl B h hy ho hp
    cases hy
  | cons z rest ih =>
    intro wl B h hy ho hp
    simp only [insertDynamic] at h
    split at h
    · cases h
    · rename_i o2 hobs
      split at h
      · cases h
      · rename_i wl2 hins
        rcases List.mem_cons.1 hy with heq | hy
        · have ho2 : z.observable = some o := by rw [← heq]; exact ho
          have hz := getObservable_ok.1 hobs
          rw [ho2] at hz
          injection hz with hoo
          rcases insertWl_ok.1 hins with ⟨blk, hpz, hwl2⟩
          rw [← hoo] at hpz
          rw [hp] at hpz
          injection hpz with hbb
          refine insertDynamic_sub h ?_
          rw [hwl2, hbb]
          exact List.mem_append_right _ (List.mem_singleton.2 rfl)
        · exact ih h hy ho hp

theorem insertPerm_eq : insertPerm [] PERM_WHITELIST_V4 = .ok permBlocks := by
  rfl

theorem ipv4BuildWl_eq {W : List Rec} {B : List (Nat × Nat)}
    (h : ipv4BuildWl W = .ok B) : insertDynamic permBlocks W = .ok B := by
  simp only [ipv4BuildWl, insertPerm_eq] at h
  exact h

theorem trieContains_mono {B B2 : List (Nat × Nat)} {a : Nat}
    (hsub : ∀ b ∈ B, b ∈ B2) (h : trieContains B a = true) :
    trieContains B2 a = true := by
  rcases List.any_eq_true.1 h with ⟨b, hb, hba⟩
  exact List.any_eq_true.2 ⟨b, hsub b hb, hba⟩

theorem buildWl_mono {W W2 : List Rec} {B B2 : List (Nat × Nat)}
    (h : ipv4BuildWl W = .ok B) (h2 : ipv4BuildWl W2 = .ok B2)
    (hsub : ∀ w ∈ W, w ∈ W2) : ∀ b ∈ B, b ∈ B2 := by
  intro b hb
  rcases insertDynamic_mem (ipv4BuildWl_eq h) hb with hmem | ⟨y, hy, o, ho, hp⟩
  · exact insertDynamic_sub (ipv4BuildWl_eq h2) hmem
  · exact insertDynamic_contrib (ipv4BuildWl_eq h2) (hsub y hy) ho hp

theorem mem_insertSet {s : List String} {w x : String} :
    x ∈ insertSet s w ↔ x ∈ s ∨ x = w := by
  simp only [insertSet]
  split
  · rename_i hw
    constructor
    · exact Or.inl
    · rintro (h | heq)
      · exact h
      · rw [heq]; exact hw
  · simp [List.mem_cons, or_comm]

theorem mem_foldl_insertSet {W : List String} :
    ∀ {s : List String} {x : String},
      x ∈ W.foldl insertSet s ↔ x ∈ s ∨ x ∈ W := by
  induction W with
  | nil => intro s x; simp
  | cons w rest ih =>
    intro s x
    simp only [List.foldl_cons]
    rw [ih, mem_insertSet]
    simp only [List.mem_cons]
    tauto

theorem mwGo_mono {wl wl2 : List String} (hsub : ∀ s ∈ wl, s ∈ wl2) :
    ∀ {bits : List String} {i : Nat}, mwGo wl bits i = true →
      mwGo wl2 bits i = true := by
  intro bits
  induction bits with
  | nil => intro i h; simp [mwGo] at h
  | cons b bits ih =>
    intro i h
    simp only [mwGo] at h ⊢
    split at h
    · rename_i hlen
      rw [if_pos hlen]
      split at h
      · rename_i hmem
        rw [if_pos (hsub _ hmem)]
      · rename_i hmem
        by_cases hmem2 : String.intercalate "." (b :: bits) ∈ wl2
        · rw [if_pos hmem2]
        · rw [if_neg hmem2]
          exact ih h
    · cases h

theorem match_whitelist_mono {wl wl2 : List String} {d : String}
    (hsub : ∀ s ∈ wl, s ∈ wl2) (h : match_whitelist wl d = true) :
    match_whitelist wl2 d = true :=
  mwGo_mono hsub h

theorem mwGo_iff {wl : List String} :
    ∀ {bits : List String} {i : Nat}, mwGo wl bits i = true ↔
      ∃ j, i + j < bits.length - j ∧
        String.intercalate "." (bits.drop j) ∈ wl := by
  intro bits
  induction bits with
  | nil =>
    intro i
    constructor
    · intro h; cases h
    · rintro ⟨j, hj, _⟩
      simp only [List.length_nil] at hj
      omega
  | cons b bits ih =>
    intro i
    simp only [mwGo]
    split
    · rename_i hlen
      split
      · rename_i hmem
        constructor
        · intro _
          exact ⟨0, by simpa using hlen, by simpa using hmem⟩
        · intro _
          rfl
      · rename_i hmem
        rw [ih]
        constructor
        · rintro ⟨j, hj, hm⟩
          refine ⟨j + 1, ?_, ?_⟩
          · simp only [List.length_cons]
            omega
          · simpa using hm
        · rintro ⟨j, hj, hm⟩
          cases j with
          | zero =>
            exfalso
            apply hmem
            simpa using hm
          | succ j =>
            refine ⟨j, ?_, ?_⟩
            · simp only [List.length_cons] at hj
              omega
            · simpa using hm
    · rename_i hlen
      constructor
      · intro h
        cases h
      · rintro ⟨j, hj, _⟩
        exfalso
        apply hlen
        simp only [List.length_cons] at hj ⊢
        omega

theorem fqdnFilter_error {wl : List String} :
    ∀ {data : List Rec}, (∃ r ∈ data, r.observable = none) →
      fqdnFilter wl data = .error (.keyError "observable") := by
  intro data
  induction data with
  | nil =>
    rintro ⟨r, hr, _⟩
    cases hr
  | cons x rest ih =>
    rintro ⟨r, hr, hro⟩
    rcases List.mem_cons.1 hr with heq | hr
    · have hxo : x.observable = none := by rw [← heq]; exact hro
      simp [fqdnFilter, getObservable, hxo]
    · cases hobs : getObservable x with
      | error e =>
        rcases getObservable_error.1 hobs with ⟨_, he⟩
        simp [fqdnFilter, hobs, he]
      | ok o =>
        have hrec := ih ⟨r, hr, hro⟩
        simp [fqdnFilter, hobs, hrec]

theorem ipv4Filter_error {B : List (Nat × Nat)} :
    ∀ {data : List Rec},
      (∃ r ∈ data, r.observable = none ∧ tag_contains_whitelist r.tags = false) →
      ∃ e, ipv4Filter B data = .error e := by
  intro data
  induction data with
  | nil =>
    rintro ⟨r, hr, _⟩
    cases hr
  | cons y rest ih =>
    rintro ⟨r, hr, hro, hrt⟩
    rcases List.mem_cons.1 hr with heq | hr
    · have hyo : y.observable = none := by rw [← heq]; exact hro
      have hyt : tag_contains_whitelist y.tags = false := by rw [← heq]; exact hrt
      refine ⟨.keyError "observable", ?_⟩
      simp only [ipv4Filter]
      rw [if_neg (by simp [hyt])]
      simp [getObservable, hyo]
    · rcases ih ⟨r, hr, hro, hrt⟩ with ⟨e, herr⟩
      by_cases hyt : tag_contains_whitelist y.tags = true
      · exact ⟨e, by simp only [ipv4Filter]; rw [if_pos hyt]; exact herr⟩
      · cases hobs : getObservable y with
        | error e2 =>
          exact ⟨e2, by simp only [ipv4Filter]; rw [if_neg hyt]; simp [hobs]⟩
        | ok o =>
          cases hp : parseIPv4 o with
          | none =>
            exact ⟨.valueError o,
              by simp only [ipv4Filter]; rw [if_neg hyt]; simp [hobs, hp]⟩
          | some a =>
            exact ⟨e,
              by simp only [ipv4Filter]; rw [if_neg hyt]; simp [hobs, hp, herr]⟩

theorem dedupByObsE_error :
    ∀ {seen : List String} {l : List Rec}, (∃ r ∈ l, r.observable = none) →
      dedupByObsE seen l = .error (.keyError "observable") := by
  intro seen l
  induction l generalizing seen with
  | nil =>
    rintro ⟨r, hr, _⟩
    cases hr
  | cons d l ih =>
    rintro ⟨r, hr, hro⟩
    rcases List.mem_cons.1 hr with heq | hr
    · have hdo : d.observable = none := by rw [← heq]; exact hro
      simp [dedupByObsE, getObservable, hdo]
    · cases hobs : getObservable d with
      | error e =>
        rcases getObservable_error.1 hobs with ⟨_, he⟩
        simp [dedupByObsE, hobs, he]
      | ok k =>
        have h1 : dedupByObsE seen l = .error (.keyError "observable") :=
          ih ⟨r, hr, hro⟩
        have h2 : dedupByObsE (k :: seen) l = .error (.keyError "observable") :=
          ih ⟨r, hr, hro⟩
        by_cases hmem : k ∈ seen
        · simp [dedupByObsE, hobs, hmem, h1]
        · simp [dedupByObsE, hobs, hmem, h2]

theorem clientAggregateE_error {data : List Rec}
    (h : ∃ r ∈ data, r.observable = none) :
    clientAggregateE data = .error (.keyError "observable") := by
  rcases h with ⟨r, hr, hro⟩
  have hr2 : r ∈ sortDesc Rec.confidence data := mem_sortDesc.2 hr
  show dedupByObsE [] (sortDesc Rec.confidence data) =
    .error (.keyError "observable")
  exact dedupByObsE_error ⟨r, hr2, hro⟩

theorem splitChar_append {c : Char} {zs : List Char} :
    ∀ {xs : List Char}, c ∉ xs →
      splitChar c (xs ++ c :: zs) = xs :: splitChar c zs := by
  intro xs
  induction xs with
  | nil =>
    intro _
    simp [splitChar]
  | cons x xs ih =>
    intro h
    have hx : ¬x = c := by
      intro heq
      apply h
      rw [heq]
      exact List.mem_cons_self _ _
    simp only [List.cons_append, splitChar, if_neg hx, List.append_eq]
    rw [ih (fun hc => h (List.mem_cons_of_mem _ hc))]

/-- Destructor for a successful `ipv4Process` run. -/
theorem ipv4Process_ok {data W out : List Rec} (h : ipv4Process data W = .ok out) :
    ∃ blocks, ipv4BuildWl W = .ok blocks ∧ ipv4Filter blocks data = .ok out := by
  simp only [ipv4Process] at h
  cases hb : ipv4BuildWl W with
  | error e => rw [hb] at h; exact Except.noConfusion h
  | ok blocks => rw [hb] at h; exact ⟨blocks, rfl, h⟩

/-! ## Claim C2 -/

/-- C2 counterexample: an fqdn record tagged whitelist whose observable
matches no whitelist entry is kept in the feed, refuting the claim that
for every observable type a record tagged whitelist is excluded. -/
theorem c2_counterexample :
    (fqdnProcess fqdnInit [⟨some "evil.example.com", 50, ["whitelist"]⟩] []).2 =
      .ok [⟨some "evil.example.com", 50, ["whitelist"]⟩] := by
  rfl

/-- C2 amended: the ipv4 processor excludes every record tagged whitelist
regardless of the matcher outcome; the fqdn processor performs no tag
check, so a record, tagged or not, is kept exactly when its observable
does not match the whitelist. -/
theorem c2_amended :
    (∀ (data W out : List Rec) (r : Rec), ipv4Process data W = .ok out →
        r ∈ data → tag_contains_whitelist r.tags = true → r ∉ out)
    ∧ (∀ (wl : List String) (data out : List Rec) (r : Rec) (o : String),
        fqdnFilter wl data = .ok out → r ∈ data → r.observable = some o →
        match_whitelist wl o = false → r ∈ out) := by
  constructor
  · intro data W out r hok hr htag hmem
    rcases ipv4Process_ok hok with ⟨blocks, hb, hf⟩
    rcases (ipv4_mem_out hf).1 hmem with ⟨_, htg, _⟩
    rw [htag] at htg
    cases htg
  · intro wl data out r o hok hr ho hm
    exact (fq_mem_out hok).2 ⟨hr, o, ho, hm⟩

/-- Witness for the amended C2 at concrete inputs. -/
theorem c2_amended_witness :
    ((⟨some "9.9.9.9", 95, ["whitelist"]⟩ : Rec) ∉ ([] : List Rec)) ∧
    ((⟨some "evil.example.com", 50, ["whitelist"]⟩ : Rec) ∈
      [(⟨some "evil.example.com", 50, ["whitelist"]⟩ : Rec)]) := by
  constructor
  · exact c2_amended.1 [⟨some "9.9.9.9", 95, ["whitelist"]⟩] [] [] _
      (by rfl) (List.mem_cons_self _ _) rfl
  · exact c2_amended.2 PERM_WHITELIST_FQDN
      [⟨some "evil.example.com", 50, ["whitelist"]⟩] _ _ "evil.example.com"
      (by rfl) (List.mem_cons_self _ _) rfl rfl

/-! ## Claim C3 -/

/-- C3 counterexample: with an empty dynamic whitelist, a record whose
observable is a deep subdomain of the permanent entry google.com stays
in the feed, because the matcher never reaches the two-label suffix of
a four-label candidate. -/
theorem c3_counterexample :
    (fqdnProcess fqdnInit [⟨some "a.b.google.com", 80, []⟩] []).2 =
      .ok [⟨some "a.b.google.com", 80, []⟩] := by
  rfl

/-- C3 amended: the permanent whitelist is always in effect and cannot
be bypassed by the dynamic whitelist: for any dynamic whitelist, an ipv4
record whose parsed observable lies in a permanent block is excluded,
and an fqdn record whose observable the matcher accepts against the
permanent domain list is excluded. -/
theorem c3_permanent :
    (∀ (W data out : List Rec) (r : Rec) (o : String) (a : Nat),
        ipv4Process data W = .ok out → r ∈ data → r.observable = some o →
        parseIPv4 o = some a → trieContains permBlocks a = true → r ∉ out)
    ∧ (∀ (W : List String) (data out : List Rec) (r : Rec) (o : String),
        (fqdnProcess fqdnInit data W).2 = .ok out → r ∈ data →
        r.observable = some o → match_whitelist PERM_WHITELIST_FQDN o = true →
        r ∉ out) := by
  constructor
  · intro W data out r o a hok hr ho hp hperm hmem
    rcases ipv4Process_ok hok with ⟨blocks, hb, hf⟩
    rcases (ipv4_mem_out hf).1 hmem with ⟨_, _, o2, a2, ho2, hp2, hc2⟩
    rw [ho] at ho2
    injection ho2 with ho2
    rw [← ho2] at hp2
    rw [hp] at hp2
    injection hp2 with hp2
    rw [← hp2] at hc2
    have hsub : ∀ b ∈ permBlocks, b ∈ blocks :=
      fun b hb2 => insertDynamic_sub (ipv4BuildWl_eq hb) hb2
    rw [trieContains_mono hsub hperm] at hc2
    cases hc2
  · intro W data out r o hok hr ho hm hmem
    have hok2 : fqdnFilter (List.foldl insertSet fqdnInit.wl W) data = .ok out := hok
    rcases (fq_mem_out hok2).1 hmem with ⟨_, o2, ho2, hm2⟩
    rw [ho] at ho2
    injection ho2 with ho2
    rw [← ho2] at hm2
    have hmono : match_whitelist (List.foldl insertSet fqdnInit.wl W) o = true := by
      refine match_whitelist_mono ?_ hm
      intro s hs
      exact mem_foldl_insertSet.2 (Or.inl hs)
    rw [hmono] at hm2
    cases hm2

/-- Witness for C3: a record in 10.0.0.0/8 and a google.com subdomain are
both excluded with an empty dynamic whitelist. -/
theorem c3_permanent_witness :
    ipv4Process [⟨some "10.1.1.1", 90, []⟩] [] = .ok [] ∧
    ((⟨some "10.1.1.1", 90, []⟩ : Rec) ∉ ([] : List Rec)) ∧
    (fqdnProcess fqdnInit [⟨some "mail.google.com", 80, []⟩] []).2 = .ok [] ∧
    ((⟨some "mail.google.com", 80, []⟩ : Rec) ∉ ([] : List Rec)) := by
  refine ⟨by rfl, ?_, by rfl, ?_⟩
  · exact c3_permanent.1 [] [⟨some "10.1.1.1", 90, []⟩] []
      ⟨some "10.1.1.1", 90, []⟩ "10.1.1.1" 167837953
      (by rfl) (List.mem_cons_self _ _) rfl rfl rfl
  · exact c3_permanent.2 [] [⟨some "mail.google.com", 80, []⟩] []
      ⟨some "mail.google.com", 80, []⟩ "mail.google.com"
      (by rfl) (List.mem_cons_self _ _) rfl rfl

/-! ## Claim C4 -/

/-- C4 evidence: the suffix matcher pops the list it is iterating, so for
a four-label candidate the two-label whitelist suffix is never tested:
a.b.google.com does not match google.com although the spec-modelled
matcher says it should; the shallower examples of the claim do hold. -/
theorem c4_match_depth_evidence :
    match_whitelist ["google.com"] "a.b.google.com" = false ∧
    suffixMatchSpec ["google.com"] "a.b.google.com" = true ∧
    match_whitelist ["google.com"] "mail.google.com" = true ∧
    match_whitelist ["google.com"] "evil.google.com" = true ∧
    match_whitelist ["google.com"] "notgoogle.com" = false :=
  ⟨rfl, rfl, rfl, rfl, rfl⟩

/-! ## Claim C5 -/

/-- C5: whitelist-induced exclusion is monotone in the dynamic whitelist
for both processors present in the sources: on success of both runs,
every input record excluded under the smaller whitelist is excluded
under the larger one. -/
theorem c5_monotone :
    (∀ (data W W2 out out2 : List Rec),
        ipv4Process data W = .ok out → ipv4Process data W2 = .ok out2 →
        (∀ w ∈ W, w ∈ W2) → ∀ r ∈ data, r ∉ out → r ∉ out2)
    ∧ (∀ (data : List Rec) (W W2 : List String) (out out2 : List Rec),
        (fqdnProcess fqdnInit data W).2 = .ok out →
        (fqdnProcess fqdnInit data W2).2 = .ok out2 →
        (∀ w ∈ W, w ∈ W2) → ∀ r ∈ data, r ∉ out → r ∉ out2) := by
  constructor
  · intro data W W2 out out2 h1 h2 hsub r hr hout hmem2
    rcases ipv4Process_ok h1 with ⟨B, hb, hf⟩
    rcases ipv4Process_ok h2 with ⟨B2, hb2, hf2⟩
    rcases (ipv4_mem_out hf2).1 hmem2 with ⟨_, htg, o, a, ho, hp, hc2⟩
    have hcB : trieContains B a = true := by
      cases hq : trieContains B a with
      | true => rfl
      | false =>
        exact absurd ((ipv4_mem_out hf).2 ⟨hr, htg, o, a, ho, hp, hq⟩) hout
    rw [trieContains_mono (buildWl_mono hb hb2 hsub) hcB] at hc2
    cases hc2
  · intro data W W2 out out2 h1 h2 hsub r hr hout hmem2
    have h1f : fqdnFilter (List.foldl insertSet fqdnInit.wl W) data = .ok out := h1
    have h2f : fqdnFilter (List.foldl insertSet fqdnInit.wl W2) data = .ok out2 := h2
    rcases (fq_mem_out h2f).1 hmem2 with ⟨_, o, ho, hm2⟩
    have hmW : match_whitelist (List.foldl insertSet fqdnInit.wl W) o = true := by
      cases hq : match_whitelist (List.foldl insertSet fqdnInit.wl W) o with
      | true => rfl
      | false => exact absurd ((fq_mem_out h1f).2 ⟨hr, o, ho, hq⟩) hout
    have hmW2 : match_whitelist (List.foldl insertSet fqdnInit.wl W2) o = true := by
      refine match_whitelist_mono ?_ hmW
      intro s hs
      rcases mem_foldl_insertSet.1 hs with h | h
      · exact mem_foldl_insertSet.2 (Or.inl h)
      · exact mem_foldl_insertSet.2 (Or.inr (hsub s h))
    rw [hmW2] at hm2
    cases hm2

/-- Witness for C5 at concrete inputs: records excluded under a dynamic
whitelist stay excluded when the whitelist grows. -/
theorem c5_monotone_witness :
    ((⟨some "1.2.3.4", 85, []⟩ : Rec) ∉ ([] : List Rec)) ∧
    ((⟨some "evil.com", 70, []⟩ : Rec) ∉ ([] : List Rec)) := by
  constructor
  · exact c5_monotone.1 [⟨some "1.2.3.4", 85, []⟩]
      [⟨some "1.2.3.4", 40, ["whitelist"]⟩]
      [⟨some "1.2.3.4", 40, ["whitelist"]⟩, ⟨some "10.0.0.1", 40, ["whitelist"]⟩]
      [] [] (by rfl) (by rfl) (by decide) _ (List.mem_cons_self _ _)
      (List.not_mem_nil _)
  · exact c5_monotone.2 [⟨some "evil.com", 70, []⟩] ["evil.com"]
      ["evil.com", "bad.org"] [] [] (by rfl) (by rfl) (by decide) _
      (List.mem_cons_self _ _) (List.not_mem_nil _)

/-! ## Claim C6 -/

/-- C6 counterexample: changing only the letter case of the candidate
changes the matcher result, refuting case-insensitivity. -/
theorem c6_counterexample :
    match_whitelist ["google.com"] "mail.google.com" = true ∧
    match_whitelist ["google.com"] "MAIL.GOOGLE.COM" = false :=
  ⟨rfl, rfl⟩

/-- C6 amended: matching is literal, case-sensitive membership: the
matcher reports a match exactly when some suffix of the candidate,
obtained by dropping j leading labels with j below half the label count,
is byte-for-byte a member of the whitelist set. -/
theorem c6_amended (wl : List String) (d : String) :
    match_whitelist wl d = true ↔
      ∃ j, j < (pySplitDot d).length - j ∧
        String.intercalate "." ((pySplitDot d).drop j) ∈ wl := by
  rw [match_whitelist, mwGo_iff]
  constructor
  · rintro ⟨j, hj, hm⟩
    exact ⟨j, by omega, hm⟩
  · rintro ⟨j, hj, hm⟩
    exact ⟨j, by omega, hm⟩

/-- Witness for the amended C6 at a concrete input. -/
theorem c6_amended_witness :
    match_whitelist ["google.com"] "sub.google.com" = true := by
  refine (c6_amended ["google.com"] "sub.google.com").2 ⟨1, ?_, ?_⟩
  · decide
  · decide

/-! ## Claim C7 -/

/-- C7: a dynamic whitelist observable without a slash is inserted as a
/32 block, and a /32 block contains exactly its own address. -/
theorem c7_bare_slash32 (o : String) (a : Nat) (wl : List (Nat × Nat)) (y : Rec)
    (hy : y.observable = some o) (hs : pyInStr '/' o = false)
    (hp : parseIPv4 o = some a) :
    insertDynamic wl [y] = .ok (wl ++ [(a, 32)]) ∧
    ∀ x : Nat, (blockContains (a, 32) x = true ↔ x = a) := by
  have hnot : '/' ∉ o.data := by
    intro hmem
    have h2 : o.data.contains '/' = true := List.elem_iff.mpr hmem
    rw [pyInStr] at hs
    rw [h2] at hs
    cases hs
  have hp2 : parseIPv4L o.data = some a := hp
  have hdata : (o ++ "/32").data = o.data ++ '/' :: ['3', '2'] := rfl
  have hsplit : splitChar '/' ((o ++ "/32").data) = [o.data, ['3', '2']] := by
    rw [hdata]
    exact splitChar_append hnot
  have hcidr : parseCIDR (o ++ "/32") = some (a, 32) := by
    rw [parseCIDR, hsplit]
    simp [hp2, parsePrefixLen, parseNatDigits]
  have hnorm : normalizeObs o = o ++ "/32" := by
    rw [normalizeObs, if_neg (by simp [hs])]
  constructor
  · simp only [insertDynamic, getObservable_ok.2 hy, hnorm, insertWl, hcidr]
  · intro x
    simp [blockContains]

/-- Witness for C7 at a concrete bare address. -/
theorem c7_bare_slash32_witness :
    insertDynamic [] [⟨some "172.16.1.60", 50, []⟩] = .ok [(2886730044, 32)] ∧
    blockContains (2886730044, 32) 2886730044 = true ∧
    blockContains (2886730044, 32) 2886730045 = false := by
  have h := c7_bare_slash32 "172.16.1.60" 2886730044 []
    ⟨some "172.16.1.60", 50, []⟩ rfl rfl rfl
  refine ⟨?_, (h.2 2886730044).2 rfl, by rfl⟩
  have h1 := h.1
  simpa using h1

/-! ## Claim C8 -/

/-- C8 counterexample: for an unsupported otype the feed branch performs
the aggregation step and then fails with a TypeError at the plugin call,
rather than failing before any aggregation. -/
theorem c8_counterexample :
    mainFeedLogged (fun _ _ _ => .ok []) "asn" [⟨some "1.2.3.4", 85, []⟩] [] =
      (["aggregate"], .error (.typeError "NoneType object is not callable")) := by
  rfl

/-- C8 amended: an otype outside the plugin table makes the factory
return none without raising; when aggregation succeeds (every record
carries the observable field) the feed branch completes the aggregation
step and then aborts with a TypeError when calling the missing plugin,
producing no feed output; when some record lacks the field, the run
instead fails earlier, inside aggregation, with a KeyError naming the
field. -/
theorem c8_amended :
    (∀ otype : String, otype ∉ plugins → factory otype = none) ∧
    (∀ (procs : String → List Rec → List Rec → Except PyErr (List Rec))
        (otype : String) (data wl ret : List Rec), factory otype = none →
        clientAggregateE data = .ok ret →
        mainFeedLogged procs otype data wl =
          (["aggregate"], .error (.typeError "NoneType object is not callable"))) ∧
    (∀ (procs : String → List Rec → List Rec → Except PyErr (List Rec))
        (otype : String) (data wl : List Rec),
        (∃ r ∈ data, r.observable = none) →
        mainFeedLogged procs otype data wl =
          ([], .error (.keyError "observable"))) := by
  refine ⟨?_, ?_, ?_⟩
  · intro otype h
    simp [factory, h]
  · intro procs otype data wl ret hf hagg
    simp [mainFeedLogged, hf, hagg]
  · intro procs otype data wl hex
    simp [mainFeedLogged, clientAggregateE_error hex]

/-- Witness for the amended C8 at a concrete unsupported otype, on both
the completed-aggregation path and the failing-aggregation path. -/
theorem c8_amended_witness :
    factory "asn" = none ∧
    mainFeedLogged (fun _ _ _ => .ok []) "asn" [⟨some "7.7.7.7", 85, []⟩] [] =
      (["aggregate"], .error (.typeError "NoneType object is not callable")) ∧
    mainFeedLogged (fun _ _ _ => .ok []) "asn" [⟨none, 50, []⟩] [] =
      ([], .error (.keyError "observable")) := by
  have h1 := c8_amended.1 "asn" (by decide)
  refine ⟨h1, ?_, ?_⟩
  · exact c8_amended.2.1 _ "asn" [⟨some "7.7.7.7", 85, []⟩] []
      [⟨some "7.7.7.7", 85, []⟩] h1 (by rfl)
  · exact c8_amended.2.2 _ "asn" [⟨none, 50, []⟩] []
      ⟨⟨none, 50, []⟩, List.mem_cons_self _ _, rfl⟩

/-! ## Claim C9 -/

/-- C9 counterexample: an ipv4 record lacking the observable field but
tagged whitelist is skipped before the field is read, so processing
succeeds with an empty feed instead of failing. -/
theorem c9_counterexample :
    ipv4Process [⟨none, 50, ["whitelist"]⟩] [] = .ok [] := by
  rfl

/-- C9 amended: an fqdn record lacking the observable field always
aborts the whole run with a KeyError naming the field, and an ipv4
record lacking it aborts the run unless the record is skipped by the
whitelist-tag check; no partial feed is returned and no record index is
reported. -/
theorem c9_amended :
    (∀ (wl : List String) (data : List Rec), (∃ r ∈ data, r.observable = none) →
        fqdnFilter wl data = .error (.keyError "observable")) ∧
    (∀ (B : List (Nat × Nat)) (data : List Rec),
        (∃ r ∈ data, r.observable = none ∧ tag_contains_whitelist r.tags = false) →
        ∃ e, ipv4Filter B data = .error e) :=
  ⟨fun _ _ h => fqdnFilter_error h, fun _ _ h => ipv4Filter_error h⟩

/-- Witness for the amended C9 at concrete inputs. -/
theorem c9_amended_witness :
    fqdnFilter [] [⟨none, 50, []⟩] = .error (.keyError "observable") ∧
    ipv4Filter [] [⟨none, 50, []⟩] = .error (.keyError "observable") := by
  refine ⟨c9_amended.1 [] _ ⟨⟨none, 50, []⟩, List.mem_cons_self _ _, rfl⟩, by rfl⟩

/-! ## Claim C10 -/

/-- C10: the fqdn processor mutates the instance whitelist in place:
every domain passed in the whitelist argument stays in the instance set,
and a later call on the same instance with an empty dynamic whitelist
still excludes records matching it. -/
theorem c10_state_accum (st : FqdnState) (data : List Rec) (wlist : List String)
    (w : String) (hw : w ∈ wlist) :
    w ∈ ((fqdnProcess st data wlist).1).wl ∧
    ∀ (data2 out2 : List Rec) (r : Rec) (o : String),
      (fqdnProcess (fqdnProcess st data wlist).1 data2 []).2 = .ok out2 →
      r ∈ data2 → r.observable = some o → match_whitelist [w] o = true →
      r ∉ out2 := by
  constructor
  · exact mem_foldl_insertSet.2 (Or.inr hw)
  · intro data2 out2 r o hok hr ho hm hmem
    have hok2 : fqdnFilter (List.foldl insertSet st.wl wlist) data2 = .ok out2 := hok
    rcases (fq_mem_out hok2).1 hmem with ⟨_, o2, ho2, hm2⟩
    rw [ho] at ho2
    injection ho2 with ho2
    rw [← ho2] at hm2
    have hmono : match_whitelist (List.foldl insertSet st.wl wlist) o = true := by
      refine match_whitelist_mono ?_ hm
      intro s hs
      have hsw : s = w := List.mem_singleton.1 hs
      rw [hsw]
      exact mem_foldl_insertSet.2 (Or.inr hw)
    rw [hmono] at hm2
    cases hm2

/-- Witness for C10 at a concrete instance and domain. -/
theorem c10_state_accum_witness :
    "bad.org" ∈ ((fqdnProcess fqdnInit [] ["bad.org"]).1).wl ∧
    ((⟨some "sub.bad.org", 60, []⟩ : Rec) ∉ ([] : List Rec)) := by
  have h := c10_state_accum fqdnInit [] ["bad.org"] "bad.org"
    (List.mem_cons_self _ _)
  refine ⟨h.1, ?_⟩
  exact h.2 [⟨some "sub.bad.org", 60, []⟩] [] _ "sub.bad.org" (by rfl)
    (List.mem_cons_self _ _) rfl rfl

/-! ## Claim C1 -/

/-- C1: for every record list and every choice of key field and rank
field, `aggregate` keeps at most one record per distinct key value (and
at least one per key occurring in the input); each kept record is from
the input and has the maximum rank among input records sharing its key,
ties broken in favour of the earliest input record (it is the head of
the input filtered to its key and rank); and the output is ordered by
rank descending with equal-rank records in input order. -/
theorem c1_aggregate_dedup {α : Type*} {κ : Type*} {ρ : Type*}
    [DecidableEq κ] [LinearOrder ρ]
    (data : List α) (key : α → κ) (rank : α → ρ) :
    (((aggregate data key rank).map key).Nodup)
    ∧ (∀ r ∈ aggregate data key rank, r ∈ data)
    ∧ (∀ s ∈ data, ∃ r ∈ aggregate data key rank, key r = key s)
    ∧ (∀ r ∈ aggregate data key rank, ∀ s ∈ data, key s = key r → rank s ≤ rank r)
    ∧ (∀ r ∈ aggregate data key rank,
        (data.filter (fun s => decide (key s = key r) && decide (rank s = rank r))).head?
          = some r)
    ∧ (aggregate data key rank).Pairwise (fun a b => rank b ≤ rank a)
    ∧ (∀ c : ρ, ((aggregate data key rank).filter (fun s => decide (rank s = c))).Sublist
          (data.filter (fun s => decide (rank s = c)))) := by
  refine ⟨?_, ?_, ?_, ?_, ?_, ?_, ?_⟩
  · show ((dedupBy key ([] : List κ) (sortDesc rank data)).map key).Nodup
    exact @nodup_map_key_dedupBy α κ _ key [] (sortDesc rank data)
  · intro r hr
    have hr2 : r ∈ dedupBy key ([] : List κ) (sortDesc rank data) := hr
    exact mem_sortDesc.1 (mem_of_mem_dedupBy hr2)
  · intro s hs
    have hs2 : s ∈ sortDesc rank data := mem_sortDesc.2 hs
    rcases @dedupBy_complete α κ _ key s [] (sortDesc rank data) hs2 with h | h
    · cases h
    · exact h
  · intro r hr s hs hk
    have hr2 : r ∈ dedupBy key ([] : List κ) (sortDesc rank data) := hr
    have hs2 : s ∈ sortDesc rank data := mem_sortDesc.2 hs
    exact dedupBy_max_rank (pairwise_sortDesc data) hr2 hs2 hk
  · intro r hr
    have hr2 : r ∈ dedupBy key ([] : List κ) (sortDesc rank data) := hr
    have h1 := dedupBy_first_key hr2
    have h2 := head_filter_strengthen
      (p := fun s => decide (key s = key r) && decide (rank s = rank r)) h1
      (fun s hps => ((Bool.and_eq_true _ _) ▸ hps).1) (by simp)
    have h3 : (sortDesc rank data).filter
        (fun s => decide (key s = key r) && decide (rank s = rank r)) =
        data.filter (fun s => decide (key s = key r) && decide (rank s = rank r)) := by
      refine filter_sortDesc ?_ data
      intro x y hx hy
      have hx2 := of_decide_eq_true ((Bool.and_eq_true _ _) ▸ hx).2
      have hy2 := of_decide_eq_true ((Bool.and_eq_true _ _) ▸ hy).2
      rw [hx2, hy2]
    rw [h3] at h2
    exact h2
  · exact (pairwise_sortDesc data).sublist (sublist_dedupBy _ _)
  · intro c
    have h1 : ((aggregate data key rank).filter (fun s => decide (rank s = c))).Sublist
        ((sortDesc rank data).filter (fun s => decide (rank s = c))) :=
      (sublist_dedupBy _ _).filter _
    have h2 : (sortDesc rank data).filter (fun s => decide (rank s = c)) =
        data.filter (fun s => decide (rank s = c)) := by
      refine filter_sortDesc ?_ data
      intro x y hx hy
      rw [of_decide_eq_true hx, of_decide_eq_true hy]
    rw [h2] at h1
    exact h1

/-- Witness for C1: the sample duplicate set collapses to the
higher-confidence record, and the discarded duplicate has lower rank. -/
theorem c1_aggregate_dedup_witness :
    aggregate [((1:Nat),(5:Nat)), (1,7), (2,3)] Prod.fst Prod.snd = [(1,7), (2,3)] ∧
    Prod.snd ((1:Nat),(5:Nat)) ≤ Prod.snd ((1:Nat),(7:Nat)) := by
  refine ⟨by decide, ?_⟩
  have h := c1_aggregate_dedup [((1:Nat),(5:Nat)), (1,7), (2,3)] Prod.fst Prod.snd
  exact h.2.2.2.1 (1,7) (by decide) (1,5) (by decide) (by decide)

end Cifsdk
